import Mathlib

/-
  Verification of the WebClonePro frontend (src/frontend/src/app):
  a shallow embedding of the URL-absolutization helper `makeUrlsAbsolute`,
  the `cloneSite` submit handler of the `Home` component, and a
  spec-modelled backend clone pipeline, together with theorems settling
  the behavioural claims about them.
-/

namespace WebClone

/- ### Character-list helpers

  The URL model works on `List Char`; `spanTake`/`spanDrop` are the
  take-while/drop-while pair used by the parser. -/

def spanTake (p : Char → Bool) : List Char → List Char
  | [] => []
  | c :: cs => if p c then c :: spanTake p cs else []

def spanDrop (p : Char → Bool) : List Char → List Char
  | [] => []
  | c :: cs => if p c then spanDrop p cs else c :: cs

def isPfx : List Char → List Char → Bool
  | [], _ => true
  | _ :: _, [] => false
  | a :: as, b :: bs => a == b && isPfx as bs

/-- Boolean test that a string starts with a given literal, used to model
  the JavaScript regular-expression anchors of the source. -/
def strStarts (s p : String) : Bool := isPfx p.toList s.toList

/- ### URL model

  Model of the WHATWG `URL` constructor used by the source
  (`new URL(v, base).href`).  A parsed URL is either hierarchical
  (`scheme://host/path?query#fragment`) or non-hierarchical
  (`scheme:rest`, e.g. `data:`, `mailto:`).  Percent-encoding,
  dot-segment normalization and case normalization are not modelled;
  no claim below depends on them. -/

def hostStop (c : Char) : Bool := c == '/' || c == '?' || c == '#'

def pathStop (c : Char) : Bool := c == '?' || c == '#'

def isSchemeChar (c : Char) : Bool := c.isAlphanum || c == '+' || c == '-' || c == '.'

structure UrlH where
  scheme : List Char
  host : List Char
  path : List Char
  query : Option (List Char)
  frag : Option (List Char)
deriving Repr, DecidableEq

inductive UrlM where
  | hier : UrlH → UrlM
  | plain : List Char → List Char → UrlM
deriving Repr, DecidableEq

/-- Split a leading `scheme:` off a character list. -/
def schemeSplit : List Char → Option (List Char × List Char)
  | [] => none
  | c :: cs =>
    if c == ':' then some ([], cs)
    else if isSchemeChar c then
      match schemeSplit cs with
      | some (s, r) => some (c :: s, r)
      | none => none
    else none

/-- Parse fragment part: a leading `#` introduces a fragment. -/
def parseF : List Char → Option (List Char)
  | '#' :: r => some r
  | _ => none

/-- Parse query and fragment from the tail that follows the path. -/
def parseQF : List Char → Option (List Char) × Option (List Char)
  | '?' :: r => (some (spanTake (fun c => c != '#') r), parseF (spanDrop (fun c => c != '#') r))
  | '#' :: r => (none, some r)
  | _ => (none, none)

/-- Parse `host`, `path`, `query`, `fragment` after a `scheme://`. -/
def parseHostPath (scheme r : List Char) : UrlH :=
  let host := spanTake (fun c => !hostStop c) r
  let r1 := spanDrop (fun c => !hostStop c) r
  let path := spanTake (fun c => !pathStop c) r1
  let r2 := spanDrop (fun c => !pathStop c) r1
  let qf := parseQF r2
  ⟨scheme, host, path, qf.1, qf.2⟩

def parseAfterScheme (scheme r : List Char) : UrlM :=
  match r with
  | '/' :: '/' :: r2 => .hier (parseHostPath scheme r2)
  | _ => .plain scheme r

/-- Parse an absolute URL: a scheme starting with an ASCII letter,
  then either an authority form or an opaque rest. -/
def parseAbsolute (l : List Char) : Option UrlM :=
  match schemeSplit l with
  | some (s, r) =>
    match s with
    | c :: _ => if c.isAlpha then some (parseAfterScheme s r) else none
    | [] => none
  | none => none

def serializeQF (q f : Option (List Char)) : List Char :=
  (match q with | some qv => '?' :: qv | none => []) ++
  (match f with | some fv => '#' :: fv | none => [])

def serializeU : UrlM → List Char
  | .hier u => u.scheme ++ ':' :: '/' :: '/' :: (u.host ++ u.path ++ serializeQF u.query u.frag)
  | .plain s r => s ++ ':' :: r

/-- Directory part of a base path for relative-reference merging:
  everything up to and including the last slash, or a single slash. -/
def dirOf (p : List Char) : List Char :=
  match spanDrop (fun c => c != '/') p.reverse with
  | [] => ['/']
  | l => l.reverse

/-- Resolve a relative reference against a hierarchical base,
  following the WHATWG relative-resolution cases used by `new URL`. -/
def relResolve (bu : UrlH) (v : List Char) : UrlH :=
  match v with
  | [] => { bu with frag := none }
  | '/' :: '/' :: r => parseHostPath bu.scheme r
  | '/' :: _ =>
    let path := spanTake (fun c => !pathStop c) v
    let qf := parseQF (spanDrop (fun c => !pathStop c) v)
    ⟨bu.scheme, bu.host, path, qf.1, qf.2⟩
  | '?' :: r =>
    ⟨bu.scheme, bu.host, bu.path,
      some (spanTake (fun c => c != '#') r), parseF (spanDrop (fun c => c != '#') r)⟩
  | '#' :: r => { bu with frag := some r }
  | _ =>
    let vp := spanTake (fun c => !pathStop c) v
    let qf := parseQF (spanDrop (fun c => !pathStop c) v)
    ⟨bu.scheme, bu.host, dirOf bu.path ++ vp, qf.1, qf.2⟩

/-- Model of `new URL(v, base).href`: `none` models the constructor
  throwing a `TypeError` (unparseable base, or a relative reference
  against a non-hierarchical base). -/
def resolveList (v b : List Char) : Option (List Char) :=
  match parseAbsolute v with
  | some u => some (serializeU u)
  | none =>
    match parseAbsolute b with
    | some (.hier bu) => some (serializeU (.hier (relResolve bu v)))
    | some (.plain _ _) => none
    | none => none

/-- String-level resolution, the form used by `makeUrlsAbsolute`. -/
def resolve (v base : String) : Option String :=
  (resolveList v.toList base.toList).map String.mk

/- ### DOM model

  The document tree produced by `DOMParser().parseFromString` is modelled
  as the list of its nodes in tree order: the per-element rewriting of
  `makeUrlsAbsolute` neither depends on nor changes nesting, so the
  parent/child structure is irrelevant to every claim below.  Tag names
  are the lowercase names the HTML parser produces. -/

structure Element where
  tag : String
  attrs : List (String × String)
deriving Repr, DecidableEq

inductive Node where
  | elem : Element → Node
  | text : String → Node
deriving Repr, DecidableEq

abbrev Doc := List Node

def getAttrList : List (String × String) → String → Option String
  | [], _ => none
  | p :: ps, a => if p.1 == a then some p.2 else getAttrList ps a

/-- Model of `el.getAttribute(name)`: value of the first attribute with
  that name (DOM attribute names are unique per element). -/
def getAttr (e : Element) (name : String) : Option String :=
  getAttrList e.attrs name

def setAttrList : List (String × String) → String → String → List (String × String)
  | [], a, v => [(a, v)]
  | p :: ps, a, v => if p.1 == a then (a, v) :: ps else p :: setAttrList ps a v

/-- Model of `el.setAttribute(name, v)`: replace the first attribute with
  that name, keeping its position, or append a new one. -/
def setAttr (e : Element) (a v : String) : Element :=
  { e with attrs := setAttrList e.attrs a v }

/- ### makeUrlsAbsolute (globals.css lines 153-172)

  The source runs four `querySelectorAll` passes: `img[src]`,
  `script[src]` and `link[href]` through `rebase` with the skip pattern
  `/^https?:|^data:/` and a JS-truthiness (non-empty) check on the value,
  and `a[href]` with the skip pattern `/^(https?:|#|mailto:)/` and no
  emptiness check.  The four passes touch pairwise disjoint tag sets, so
  they are folded into one per-element function; an uncaught `new URL`
  throw anywhere makes the whole call throw, modelled by `none`. -/

def skipRebase (v : String) : Bool :=
  strStarts v "http:" || strStarts v "https:" || strStarts v "data:"

def skipAnchor (h : String) : Bool :=
  strStarts h "http:" || strStarts h "https:" || strStarts h "#" || strStarts h "mailto:"

/-- The body of the `rebase` closure for one selected element: rewrite
  attribute `attr` unless the value is falsy (empty) or matches
  `/^https?:|^data:/`; an element without the attribute is not selected
  and left alone. -/
def rebaseElem (base attr : String) (e : Element) : Option Element :=
  match getAttr e attr with
  | some v =>
    if v ≠ "" ∧ skipRebase v = false then (resolve v base).map (setAttr e attr)
    else some e
  | none => some e

/-- The anchor pass: rewrite `href` unless it matches
  `/^(https?:|#|mailto:)/`; note there is no emptiness check here. -/
def anchorElem (base : String) (e : Element) : Option Element :=
  match getAttr e "href" with
  | some h => if skipAnchor h = false then (resolve h base).map (setAttr e "href") else some e
  | none => some e

def processElem (base : String) (e : Element) : Option Element :=
  if e.tag = "img" ∨ e.tag = "script" then rebaseElem base "src" e
  else if e.tag = "link" then rebaseElem base "href" e
  else if e.tag = "a" then anchorElem base e
  else some e

def processNode (base : String) : Node → Option Node
  | .text s => some (.text s)
  | .elem e => (processElem base e).map .elem

def traverseDoc (f : Node → Option Node) : Doc → Option Doc
  | [] => some []
  | n :: ns =>
    match f n, traverseDoc f ns with
    | some n', some ns' => some (n' :: ns')
    | _, _ => none

/-- Model of `makeUrlsAbsolute(html, base)` at the tree level (the HTML
  parse/serialize wrapper is not modelled): rewrite every URL-bearing
  attribute, `none` when a `new URL` call throws. -/
def makeUrlsAbsolute (d : Doc) (base : String) : Option Doc :=
  traverseDoc (processNode base) d

/- ### Page data and the Home component state (globals.css lines 144-213)

  The five `useState` hooks of `Home` form the state; `cloneSite` is a
  state transformer taking the outcome of the single `fetch` call as an
  explicit argument.  Note the source file is missing one closing brace
  after the `catch` block; the model takes the evident intended structure
  in which `cloneSite` ends after the `catch`. -/

structure PageData where
  url : String
  html : String
  title : String
  description : String
  favicon : Option String
deriving Repr, DecidableEq

structure HomeState where
  url : String
  pages : List PageData
  sel : Nat
  loading : Bool
  error : Option String
deriving Repr, DecidableEq

/-- Outcome of the `fetch("http://localhost:8000/clone", ...)` round trip:
  `httpFail d` models a non-ok response whose JSON body has `detail` field
  `d` (`none` for absent or falsy), `ok ps` models an ok response whose
  JSON has `pages` field `ps` (`none` for absent), `thrown m` models a
  rejected promise (`none` for a thrown non-`Error` value). -/
inductive FetchResult where
  | httpFail (detail : Option String)
  | ok (pages : Option (List PageData))
  | thrown (msg : Option String)
deriving Repr, DecidableEq

structure CloneOutcome where
  state : HomeState
  fetched : Bool
deriving Repr, DecidableEq

def cloneSite (s : HomeState) (r : FetchResult) : CloneOutcome :=
  let s0 : HomeState := { s with error := none, pages := [] }
  if s0.url = "" then ⟨{ s0 with error := some "Please enter a URL" }, false⟩
  else
    let s1 : HomeState := { s0 with loading := true }
    match r with
    | .httpFail d =>
      ⟨{ s1 with error := some (match d with | some dd => if dd = "" then "Clone failed" else dd | none => "Clone failed") }, true⟩
    | .thrown m =>
      ⟨{ s1 with error := some (match m with | some mm => mm | none => "An unknown error occurred") }, true⟩
    | .ok pages =>
      match pages with
      | none => ⟨{ s1 with error := some "No pages returned" }, true⟩
      | some ps =>
        if ps.isEmpty then ⟨{ s1 with error := some "No pages returned" }, true⟩
        else ⟨{ s1 with pages := ps, sel := 0 }, true⟩

/-- The `onChange` handler of the URL input: `setUrl(e.target.value)`. -/
def setUrlInput (s : HomeState) (v : String) : HomeState := { s with url := v }

/-- The sidebar page button handler: `setSel(i)`. -/
def selectPage (s : HomeState) (i : Nat) : HomeState := { s with sel := i }

/-- The `download` helper touches no React state hook. -/
def downloadPage (s : HomeState) : HomeState := s

/- ### Spec-modelled backend clone pipeline

  Modelled from the spec: the backend serving `POST /clone` (the Crawl
  Scheduler and Snapshot Aggregator of spec sections 4.6 and 4.7, and the
  canonicalization of the glossary) is code of this repository that is
  not under src/; only its frontend caller is.  The definitions below
  follow the words of the spec: FIFO frontier seeded with the
  canonicalized seed URL, visited-set dedup at enqueue time, maxPages and
  maxDepth budgets, non-seed failures dropped, seed failure fatal, and a
  finalization that fails on zero records.  Fetching and link discovery
  are abstracted as oracle functions. -/

structure CloneRequest where
  seedUrl : String
  maxPages : Nat
  maxDepth : Nat
deriving Repr, DecidableEq

structure RenderedPage where
  html : String
  title : String
  description : String
  favicon : Option String
deriving Repr, DecidableEq

inductive CloneResult where
  | success (pages : List PageData)
  | failure (reason : String)
deriving Repr, DecidableEq

/-- Modelled from the spec glossary: canonical URL keeps
  scheme+host+path+query, strips the fragment, and normalizes the
  trailing slash (here: drops it). -/
def canonicalize (u : String) : String :=
  let noFrag := u.toList.takeWhile (fun c => c != '#')
  match noFrag.getLast? with
  | some '/' => String.mk noFrag.dropLast
  | _ => String.mk noFrag

def mkRecord (u : String) (pg : RenderedPage) : PageData :=
  { url := u, html := pg.html, title := pg.title,
    description := pg.description, favicon := pg.favicon }

def finalize (acc : List PageData) : CloneResult :=
  match acc with
  | [] => .failure "EmptyResult"
  | _ => .success acc

/-- Modelled from the spec: one Crawl Scheduler loop.  `frontier` is the
  FIFO queue of pending (url, depth) pairs, `visited` the enqueued
  canonical URLs, `acc` the Aggregator records in completion order, and
  `seedPending` whether the next pop is the seed (whose failure is
  fatal).  `fuel` bounds the loop. -/
def crawlLoop (fetchO : String → Option RenderedPage) (discoverO : String → List String)
    (req : CloneRequest) :
    Nat → List (String × Nat) → List String → List PageData → Bool → CloneResult
  | 0, _, _, acc, _ => finalize acc
  | _ + 1, [], _, acc, _ => finalize acc
  | fuel + 1, (u, depth) :: frontier, visited, acc, seedPending =>
    if req.maxPages ≤ acc.length then finalize acc
    else
      match fetchO u with
      | none =>
        if seedPending then .failure "seed fetch failed"
        else crawlLoop fetchO discoverO req fuel frontier visited acc false
      | some pg =>
        let links := if depth < req.maxDepth then (discoverO u).map canonicalize else []
        let step := links.foldl
          (fun (fv : List (String × Nat) × List String) l =>
            if fv.2.contains l then fv else (fv.1 ++ [(l, depth + 1)], fv.2 ++ [l]))
          (frontier, visited)
        crawlLoop fetchO discoverO req fuel step.1 step.2 (acc ++ [mkRecord u pg]) false

/-- Modelled from the spec: the whole clone pipeline for one request. -/
def runClone (fetchO : String → Option RenderedPage) (discoverO : String → List String)
    (req : CloneRequest) : CloneResult :=
  let seed := canonicalize req.seedUrl
  crawlLoop fetchO discoverO req (req.maxPages + req.maxDepth + 1) [(seed, 0)] [seed] [] true

/- ### Lemmas about the scanning helpers -/

theorem spanTake_all (p : Char → Bool) : ∀ l, ∀ x ∈ spanTake p l, p x = true := by
  intro l
  induction l with
  | nil => intro x hx; simp [spanTake] at hx
  | cons c cs ih =>
    intro x hx
    by_cases hc : p c = true
    · simp only [spanTake, hc, if_true, List.mem_cons] at hx
      rcases hx with rfl | hx
      · exact hc
      · exact ih x hx
    · simp [spanTake, hc] at hx

theorem spanTake_of_all (p : Char → Bool) : ∀ l, (∀ x ∈ l, p x = true) → spanTake p l = l := by
  intro l
  induction l with
  | nil => intro _; rfl
  | cons c cs ih =>
    intro h
    have hc : p c = true := h c (by simp)
    simp only [spanTake, hc, if_true]
    rw [ih (fun x hx => h x (by simp [hx]))]

theorem spanDrop_of_all (p : Char → Bool) : ∀ l, (∀ x ∈ l, p x = true) → spanDrop p l = [] := by
  intro l
  induction l with
  | nil => intro _; rfl
  | cons c cs ih =>
    intro h
    have hc : p c = true := h c (by simp)
    simp only [spanDrop, hc, if_true]
    exact ih (fun x hx => h x (by simp [hx]))

theorem spanTake_append (p : Char → Bool) :
    ∀ l r, (∀ x ∈ l, p x = true) → spanTake p (l ++ r) = l ++ spanTake p r := by
  intro l r h
  induction l with
  | nil => simp
  | cons c cs ih =>
    have hc : p c = true := h c (by simp)
    simp only [List.cons_append, spanTake, hc, if_true]
    exact congrArg (fun t => c :: t) (ih (fun x hx => h x (by simp [hx])))

theorem spanDrop_append (p : Char → Bool) :
    ∀ l r, (∀ x ∈ l, p x = true) → spanDrop p (l ++ r) = spanDrop p r := by
  intro l r h
  induction l with
  | nil => simp
  | cons c cs ih =>
    have hc : p c = true := h c (by simp)
    simp only [List.cons_append, spanDrop, hc, if_true]
    exact ih (fun x hx => h x (by simp [hx]))

theorem spanDrop_head (p : Char → Bool) :
    ∀ l c r, spanDrop p l = c :: r → p c = false := by
  intro l
  induction l with
  | nil => intro c r h; simp [spanDrop] at h
  | cons a as ih =>
    intro c r h
    by_cases ha : p a = true
    · simp only [spanDrop, ha, if_true] at h; exact ih c r h
    · simp [spanDrop, ha] at h
      rcases h with ⟨rfl, _⟩
      simpa using ha

theorem spanTake_append_spanDrop (p : Char → Bool) :
    ∀ l, spanTake p l ++ spanDrop p l = l := by
  intro l
  induction l with
  | nil => rfl
  | cons a as ih =>
    by_cases ha : p a = true
    · simp [spanTake, spanDrop, ha, ih]
    · simp [spanTake, spanDrop, ha]

theorem spanDrop_subset (p : Char → Bool) :
    ∀ l x, x ∈ spanDrop p l → x ∈ l := by
  intro l
  induction l with
  | nil => intro x hx; simp [spanDrop] at hx
  | cons a as ih =>
    intro x hx
    by_cases ha : p a = true
    · simp only [spanDrop, ha, if_true] at hx
      exact List.mem_cons_of_mem a (ih x hx)
    · simp only [spanDrop, ha, if_false, Bool.not_eq_true] at hx
      exact hx

theorem spanDrop_ne_nil (p : Char → Bool) :
    ∀ l a, a ∈ l → p a = false → spanDrop p l ≠ [] := by
  intro l
  induction l with
  | nil => intro a ha; simp at ha
  | cons b bs ih =>
    intro a ha hpa
    by_cases hb : p b = true
    · rcases List.mem_cons.mp ha with rfl | ha2
      · rw [hpa] at hb; cases hb
      · simp only [spanDrop, hb, if_true]
        exact ih a ha2 hpa
    · simp [spanDrop, hb]

/- ### Scheme lemmas and well-formed URLs -/

theorem schemeSplit_eq : ∀ l s r, schemeSplit l = some (s, r) →
    l = s ++ ':' :: r ∧ ∀ x ∈ s, isSchemeChar x = true := by
  intro l
  induction l with
  | nil => intro s r h; simp [schemeSplit] at h
  | cons c cs ih =>
    intro s r h
    unfold schemeSplit at h
    by_cases hc : (c == ':') = true
    · rw [if_pos hc] at h
      simp only [Option.some.injEq, Prod.mk.injEq] at h
      obtain ⟨rfl, rfl⟩ := h
      have : c = ':' := by simpa using hc
      subst this
      exact ⟨rfl, by simp⟩
    · rw [if_neg hc] at h
      by_cases hsc : isSchemeChar c = true
      · rw [if_pos hsc] at h
        rcases heq : schemeSplit cs with _ | ⟨s1, r1⟩
        · rw [heq] at h; exact absurd h (by simp)
        · rw [heq] at h
          simp only [Option.some.injEq, Prod.mk.injEq] at h
          obtain ⟨rfl, rfl⟩ := h
          obtain ⟨hcs, hall⟩ := ih s1 r1 heq
          constructor
          · simp [hcs]
          · intro x hx
            rcases List.mem_cons.mp hx with rfl | hx2
            · exact hsc
            · exact hall x hx2
      · rw [if_neg hsc] at h; exact absurd h (by simp)

theorem schemeSplit_append : ∀ s r, (∀ x ∈ s, isSchemeChar x = true) →
    schemeSplit (s ++ ':' :: r) = some (s, r) := by
  intro s
  induction s with
  | nil => intro r _; simp [schemeSplit]
  | cons c cs ih =>
    intro r h
    have hc : isSchemeChar c = true := h c (by simp)
    have hcne : (c == ':') = false := by
      rcases Bool.eq_false_or_eq_true (c == ':') with h0 | h0
      · exfalso
        have : c = ':' := by simpa using h0
        subst this
        exact absurd hc (by decide)
      · exact h0
    rw [List.cons_append]
    unfold schemeSplit
    rw [hcne, if_neg (by simp), if_pos hc, ih r (fun x hx => h x (by simp [hx]))]

def goodScheme (s : List Char) : Prop :=
  (∃ c cs, s = c :: cs ∧ c.isAlpha = true) ∧ ∀ x ∈ s, isSchemeChar x = true

def goodPath (p : List Char) : Prop :=
  (∀ x ∈ p, pathStop x = false) ∧ (p = [] ∨ p.head? = some '/')

def noDSlash : List Char → Bool
  | '/' :: '/' :: _ => false
  | _ => true

def hierWF (u : UrlH) : Prop :=
  goodScheme u.scheme ∧
  (∀ x ∈ u.host, hostStop x = false) ∧
  goodPath u.path ∧
  (∀ qv, u.query = some qv → ∀ x ∈ qv, (x != '#') = true)

def urlWF : UrlM → Prop
  | .hier u => hierWF u
  | .plain s r => goodScheme s ∧ noDSlash r = true

/- ### Parsing produces well-formed URLs -/

theorem parseHostPath_scheme (scheme r : List Char) :
    (parseHostPath scheme r).scheme = scheme := rfl

theorem parseHostPath_host (scheme r : List Char) :
    (parseHostPath scheme r).host = spanTake (fun c => !hostStop c) r := rfl

theorem parseHostPath_path (scheme r : List Char) :
    (parseHostPath scheme r).path
      = spanTake (fun c => !pathStop c) (spanDrop (fun c => !hostStop c) r) := rfl

theorem parseHostPath_query (scheme r : List Char) :
    (parseHostPath scheme r).query
      = (parseQF (spanDrop (fun c => !pathStop c) (spanDrop (fun c => !hostStop c) r))).1 := rfl

theorem parseHostPath_frag (scheme r : List Char) :
    (parseHostPath scheme r).frag
      = (parseQF (spanDrop (fun c => !pathStop c) (spanDrop (fun c => !hostStop c) r))).2 := rfl

theorem parseQF_fst_wf (l : List Char) :
    ∀ qv, (parseQF l).1 = some qv → ∀ x ∈ qv, (x != '#') = true := by
  intro qv hq x hx
  unfold parseQF at hq
  split at hq
  · simp only [Option.some.injEq] at hq
    subst hq
    exact spanTake_all _ _ x hx
  · simp at hq
  · simp at hq

theorem parseHostPath_wf (scheme r : List Char) (hs : goodScheme scheme) :
    hierWF (parseHostPath scheme r) := by
  refine ⟨hs, ?_, ⟨?_, ?_⟩, ?_⟩
  · intro x hx
    rw [parseHostPath_host] at hx
    have := spanTake_all (fun c => !hostStop c) r x hx
    simpa using this
  · intro x hx
    rw [parseHostPath_path] at hx
    have := spanTake_all (fun c => !pathStop c) _ x hx
    simpa using this
  · rw [parseHostPath_path]
    rcases hr1 : spanDrop (fun c => !hostStop c) r with _ | ⟨c, t⟩
    · left; simp [spanTake]
    · have hc : (!hostStop c) = false := spanDrop_head _ _ _ _ hr1
      have hc2 : hostStop c = true := by simpa using hc
      have hcases : c = '/' ∨ pathStop c = true := by
        simp only [hostStop, Bool.or_eq_true, beq_iff_eq] at hc2
        rcases hc2 with (h1 | h1) | h1
        · exact Or.inl h1
        · exact Or.inr (by simp [pathStop, h1])
        · exact Or.inr (by simp [pathStop, h1])
      rcases hcases with rfl | hps
      · right
        have hkeep : (!pathStop '/') = true := by decide
        simp [spanTake, hkeep]
      · left
        have hstop : (!pathStop c) = false := by simp [hps]
        simp [spanTake, hstop]
  · intro qv hq
    rw [parseHostPath_query] at hq
    exact parseQF_fst_wf _ qv hq

theorem parseAfterScheme_wf (scheme r : List Char) (hs : goodScheme scheme) :
    urlWF (parseAfterScheme scheme r) := by
  unfold parseAfterScheme
  split
  · exact parseHostPath_wf _ _ hs
  · rename_i hnm
    refine ⟨hs, ?_⟩
    unfold noDSlash
    split
    · rename_i t
      exact (hnm t rfl).elim
    · rfl

theorem parse_wf : ∀ l u, parseAbsolute l = some u → urlWF u := by
  intro l u h
  unfold parseAbsolute at h
  split at h
  · rename_i s r heq
    split at h
    · rename_i c cs
      by_cases hca : c.isAlpha = true
      · rw [if_pos hca] at h
        simp only [Option.some.injEq] at h
        subst h
        have hall := (schemeSplit_eq l _ _ heq).2
        exact parseAfterScheme_wf _ _ ⟨⟨c, cs, rfl, hca⟩, hall⟩
      · rw [if_neg hca] at h
        exact absurd h (by simp)
    · exact absurd h (by simp)
  · exact absurd h (by simp)

/- ### Serialization round trip on well-formed URLs -/

theorem serializeQF_shape (q f : Option (List Char)) :
    serializeQF q f = [] ∨ (∃ t, serializeQF q f = '?' :: t) ∨ (∃ t, serializeQF q f = '#' :: t) := by
  cases q with
  | some qv =>
    cases f with
    | some fv => exact Or.inr (Or.inl ⟨qv ++ '#' :: fv, by simp [serializeQF]⟩)
    | none => exact Or.inr (Or.inl ⟨qv, by simp [serializeQF]⟩)
  | none =>
    cases f with
    | some fv => exact Or.inr (Or.inr ⟨fv, rfl⟩)
    | none => exact Or.inl rfl

theorem spanTake_stop_qf (p : Char → Bool) (hq : p '?' = false) (hh : p '#' = false)
    (qf : List Char)
    (hshape : qf = [] ∨ (∃ t, qf = '?' :: t) ∨ (∃ t, qf = '#' :: t)) :
    spanTake p qf = [] ∧ spanDrop p qf = qf := by
  rcases hshape with rfl | ⟨t, rfl⟩ | ⟨t, rfl⟩
  · exact ⟨rfl, rfl⟩
  · exact ⟨by simp [spanTake, hq], by simp [spanDrop, hq]⟩
  · exact ⟨by simp [spanTake, hh], by simp [spanDrop, hh]⟩

theorem hostScan_stops (path qf : List Char) (hp : goodPath path)
    (hshape : qf = [] ∨ (∃ t, qf = '?' :: t) ∨ (∃ t, qf = '#' :: t)) :
    spanTake (fun c => !hostStop c) (path ++ qf) = []
      ∧ spanDrop (fun c => !hostStop c) (path ++ qf) = path ++ qf := by
  obtain ⟨hall, hhead⟩ := hp
  rcases hhead with rfl | hh
  · simp only [List.nil_append]
    exact spanTake_stop_qf _ (by decide) (by decide) qf hshape
  · obtain ⟨t, rfl⟩ : ∃ t, path = '/' :: t := by
      cases path with
      | nil => simp at hh
      | cons a t2 =>
        simp only [List.head?_cons, Option.some.injEq] at hh
        exact ⟨t2, by rw [hh]⟩
    have h0 : (!hostStop '/') = false := by decide
    exact ⟨by simp [spanTake, h0], by simp [spanDrop, h0]⟩

theorem pathScan (path qf : List Char) (hall : ∀ x ∈ path, pathStop x = false)
    (hshape : qf = [] ∨ (∃ t, qf = '?' :: t) ∨ (∃ t, qf = '#' :: t)) :
    spanTake (fun c => !pathStop c) (path ++ qf) = path
      ∧ spanDrop (fun c => !pathStop c) (path ++ qf) = qf := by
  have hall2 : ∀ x ∈ path, ((fun c => !pathStop c) x) = true := by
    intro x hx; simp [hall x hx]
  have hstop := spanTake_stop_qf (fun c => !pathStop c) (by decide) (by decide) qf hshape
  constructor
  · rw [spanTake_append _ _ _ hall2, hstop.1, List.append_nil]
  · rw [spanDrop_append _ _ _ hall2, hstop.2]

theorem parseQF_serializeQF (q f : Option (List Char))
    (hq : ∀ qv, q = some qv → ∀ x ∈ qv, (x != '#') = true) :
    parseQF (serializeQF q f) = (q, f) := by
  cases q with
  | none =>
    cases f with
    | none => rfl
    | some fv => rfl
  | some qv =>
    have hqv : ∀ x ∈ qv, ((fun c => c != '#') x) = true := by
      intro x hx; exact hq qv rfl x hx
    cases f with
    | none =>
      have hser : serializeQF (some qv) none = '?' :: qv := by
        simp [serializeQF]
      rw [hser]
      show (some (spanTake (fun c => c != '#') qv),
            parseF (spanDrop (fun c => c != '#') qv)) = _
      rw [spanTake_of_all _ _ hqv, spanDrop_of_all _ _ hqv]
      rfl
    | some fv =>
      have hser : serializeQF (some qv) (some fv) = '?' :: (qv ++ '#' :: fv) := by
        simp [serializeQF]
      rw [hser]
      show (some (spanTake (fun c => c != '#') (qv ++ '#' :: fv)),
            parseF (spanDrop (fun c => c != '#') (qv ++ '#' :: fv))) = _
      rw [spanTake_append _ _ _ hqv, spanDrop_append _ _ _ hqv]
      have hh : (('#' : Char) != '#') = false := by decide
      have h3 : spanTake (fun c => c != '#') ('#' :: fv) = [] := by simp [spanTake, hh]
      have h4 : spanDrop (fun c => c != '#') ('#' :: fv) = '#' :: fv := by simp [spanDrop, hh]
      rw [h3, h4, List.append_nil]
      rfl

theorem parseHostPath_serialize (u : UrlH) (h : hierWF u) :
    parseHostPath u.scheme (u.host ++ u.path ++ serializeQF u.query u.frag) = u := by
  obtain ⟨sc, ho, pa, qu, fr⟩ := u
  obtain ⟨hs, hh, hp, hq⟩ := h
  have hshape := serializeQF_shape qu fr
  have hho : ∀ x ∈ ho, ((fun c => !hostStop c) x) = true := by
    intro x hx; simp [hh x hx]
  have hhost := hostScan_stops pa (serializeQF qu fr) hp hshape
  have hps := pathScan pa (serializeQF qu fr) hp.1 hshape
  have hqf := parseQF_serializeQF qu fr hq
  simp only [parseHostPath, UrlH.mk.injEq, List.append_assoc]
  have hDrop1 : spanDrop (fun c => !hostStop c) (ho ++ (pa ++ serializeQF qu fr))
      = pa ++ serializeQF qu fr := by
    rw [spanDrop_append _ _ _ hho, hhost.2]
  refine ⟨trivial, ?_, ?_, ?_, ?_⟩
  · rw [spanTake_append _ _ _ hho, hhost.1, List.append_nil]
  · rw [hDrop1, hps.1]
  · rw [hDrop1, hps.2, hqf]
  · rw [hDrop1, hps.2, hqf]

theorem parse_serialize (u : UrlM) (h : urlWF u) : parseAbsolute (serializeU u) = some u := by
  cases u with
  | hier uh =>
    obtain ⟨sc, ho, pa, qu, fr⟩ := uh
    obtain ⟨⟨⟨c, cs, hceq, hca⟩, hall⟩, hh, hp, hq⟩ := h
    subst hceq
    have hrt := parseHostPath_serialize ⟨c :: cs, ho, pa, qu, fr⟩
      ⟨⟨⟨c, cs, rfl, hca⟩, hall⟩, hh, hp, hq⟩
    show parseAbsolute ((c :: cs) ++ ':'
        :: ('/' :: '/' :: (ho ++ pa ++ serializeQF qu fr))) = _
    unfold parseAbsolute
    rw [schemeSplit_append _ _ hall]
    show (if c.isAlpha then
        some (parseAfterScheme (c :: cs) ('/' :: '/' :: (ho ++ pa ++ serializeQF qu fr)))
      else none) = _
    rw [if_pos hca]
    show some (UrlM.hier (parseHostPath (c :: cs) (ho ++ pa ++ serializeQF qu fr))) = _
    rw [hrt]
  | plain s r =>
    obtain ⟨⟨⟨c, cs, hceq, hca⟩, hall⟩, hnd⟩ := h
    subst hceq
    show parseAbsolute ((c :: cs) ++ ':' :: r) = _
    unfold parseAbsolute
    rw [schemeSplit_append _ _ hall]
    show (if c.isAlpha then some (parseAfterScheme (c :: cs) r) else none) = _
    rw [if_pos hca]
    have hpas : parseAfterScheme (c :: cs) r = .plain (c :: cs) r := by
      unfold parseAfterScheme
      split
      · rename_i r2
        exfalso
        simp [noDSlash] at hnd
      · rfl
    rw [hpas]

/- ### Relative resolution preserves well-formedness -/

theorem dirOf_mem (p : List Char) : ∀ x ∈ dirOf p, x ∈ p ∨ x = '/' := by
  intro x hx
  unfold dirOf at hx
  split at hx
  · right; simpa using hx
  · left
    have hx2 : x ∈ spanDrop (fun c => c != '/') p.reverse := by simpa using hx
    have := spanDrop_subset _ _ x hx2
    simpa using this

theorem dirOf_ne_nil (p : List Char) : dirOf p ≠ [] := by
  unfold dirOf
  split
  · simp
  · rename_i heq
    simpa using heq

theorem dirOf_head (p : List Char) (h : p = [] ∨ p.head? = some '/') :
    (dirOf p).head? = some '/' := by
  rcases h with rfl | hh
  · rfl
  · obtain ⟨t, rfl⟩ : ∃ t, p = '/' :: t := by
      cases p with
      | nil => simp at hh
      | cons a t2 =>
        simp only [List.head?_cons, Option.some.injEq] at hh
        exact ⟨t2, by rw [hh]⟩
    unfold dirOf
    split
    · rfl
    · rename_i heq
      have hsplit := spanTake_append_spanDrop (fun c => c != '/') ('/' :: t).reverse
      have h2 : (spanDrop (fun c => c != '/') ('/' :: t).reverse).reverse
          ++ (spanTake (fun c => c != '/') ('/' :: t).reverse).reverse = '/' :: t := by
        rw [← List.reverse_append, hsplit, List.reverse_reverse]
      rcases hrev : (spanDrop (fun c => c != '/') ('/' :: t).reverse).reverse with _ | ⟨x, xs⟩
      · exact absurd (by simpa using hrev) heq
      · rw [hrev] at h2
        rw [List.cons_append] at h2
        have hx : x = '/' := by injection h2
        rw [hx]
        rfl

theorem relResolve_wf (bu : UrlH) (v : List Char) (h : hierWF bu) :
    hierWF (relResolve bu v) := by
  obtain ⟨hs, hh, hp, hq⟩ := h
  unfold relResolve
  split
  · exact ⟨hs, hh, hp, hq⟩
  · exact parseHostPath_wf _ _ hs
  · refine ⟨hs, hh, ⟨?_, ?_⟩, ?_⟩
    · intro x hx
      have := spanTake_all (fun c => !pathStop c) _ x hx
      simpa using this
    · right
      have h0 : (!pathStop '/') = true := by decide
      simp [spanTake, h0]
    · intro qv hq2
      exact parseQF_fst_wf _ qv hq2
  · refine ⟨hs, hh, hp, ?_⟩
    intro qv hq2 x hx
    simp only [Option.some.injEq] at hq2
    subst hq2
    exact spanTake_all _ _ x hx
  · exact ⟨hs, hh, hp, hq⟩
  · refine ⟨hs, hh, ⟨?_, ?_⟩, ?_⟩
    · intro x hx
      rcases List.mem_append.mp hx with hx1 | hx2
      · rcases dirOf_mem bu.path x hx1 with hxp | rfl
        · exact hp.1 x hxp
        · decide
      · have := spanTake_all (fun c => !pathStop c) _ x hx2
        simpa using this
    · right
      have hdh := dirOf_head bu.path hp.2
      rcases hD : dirOf bu.path with _ | ⟨c, t⟩
      · exact absurd hD (dirOf_ne_nil _)
      · rw [hD] at hdh
        simp only [List.head?_cons, Option.some.injEq] at hdh
        subst hdh
        simp [List.cons_append]
    · intro qv hq2
      exact parseQF_fst_wf _ qv hq2

/- ### Resolution outputs are serialized well-formed URLs; fixed point -/

theorem resolveList_wf : ∀ v b out, resolveList v b = some out →
    ∃ u, out = serializeU u ∧ urlWF u := by
  intro v b out h
  unfold resolveList at h
  split at h
  · rename_i u heq
    simp only [Option.some.injEq] at h
    subst h
    exact ⟨u, rfl, parse_wf _ _ heq⟩
  · split at h
    · rename_i bu heq
      simp only [Option.some.injEq] at h
      subst h
      exact ⟨.hier (relResolve bu v), rfl, relResolve_wf bu v (parse_wf _ _ heq)⟩
    · simp at h
    · simp at h

theorem resolveList_fix : ∀ v b out, resolveList v b = some out →
    resolveList out b = some out := by
  intro v b out h
  obtain ⟨u, rfl, hwf⟩ := resolveList_wf v b out h
  unfold resolveList
  rw [parse_serialize u hwf]

theorem resolve_fix (v base u : String) (h : resolve v base = some u) :
    resolve u base = some u := by
  unfold resolve at h ⊢
  rcases hro : resolveList v.toList base.toList with _ | out
  · rw [hro] at h
    simp at h
  · rw [hro] at h
    have h2 : String.mk out = u := by simpa using h
    subst h2
    have htl : (String.mk out).toList = out := rfl
    rw [htl, resolveList_fix _ _ _ hro]
    rfl

/- ### DOM attribute lemmas -/

theorem getAttrList_setAttrList_self : ∀ (l : List (String × String)) (a v : String),
    getAttrList (setAttrList l a v) a = some v := by
  intro l a v
  induction l with
  | nil => simp [setAttrList, getAttrList]
  | cons p ps ih =>
    by_cases hp : (p.1 == a) = true
    · simp [setAttrList, hp, getAttrList]
    · simp [setAttrList, hp, getAttrList, ih]

theorem setAttrList_id : ∀ (l : List (String × String)) (a v : String),
    getAttrList l a = some v → setAttrList l a v = l := by
  intro l a v h
  induction l with
  | nil => simp [getAttrList] at h
  | cons p ps ih =>
    rcases p with ⟨k, w⟩
    by_cases hk : (k == a) = true
    · have hka : k = a := by simpa using hk
      subst hka
      simp [getAttrList] at h
      subst h
      simp [setAttrList]
    · simp [getAttrList, hk] at h
      simp [setAttrList, hk, ih h]

theorem getAttrList_setAttrList_other : ∀ (l : List (String × String)) (a v b : String),
    ¬ a = b → getAttrList (setAttrList l a v) b = getAttrList l b := by
  intro l a v b hab
  have hba : (a == b) = false := by simpa using hab
  induction l with
  | nil => simp [setAttrList, getAttrList, hba]
  | cons p ps ih =>
    by_cases hp : (p.1 == a) = true
    · have hpa : p.1 = a := by simpa using hp
      simp [setAttrList, hp, getAttrList, hpa, hba]
    · simp [setAttrList, hp, getAttrList, ih]

theorem getAttr_setAttr_self (e : Element) (a v : String) :
    getAttr (setAttr e a v) a = some v :=
  getAttrList_setAttrList_self e.attrs a v

theorem setAttr_id (e : Element) (a v : String) (h : getAttr e a = some v) :
    setAttr e a v = e := by
  unfold setAttr
  rw [setAttrList_id e.attrs a v h]

theorem getAttr_setAttr_other (e : Element) (a v b : String) (h : ¬ a = b) :
    getAttr (setAttr e a v) b = getAttr e b :=
  getAttrList_setAttrList_other e.attrs a v b h

theorem setAttr_tag (e : Element) (a v : String) : (setAttr e a v).tag = e.tag := rfl

/- ### Per-element behaviour of makeUrlsAbsolute -/

theorem rebaseElem_tag (base attr : String) (e e' : Element)
    (h : rebaseElem base attr e = some e') : e'.tag = e.tag := by
  unfold rebaseElem at h
  split at h
  · rename_i v hv
    split at h
    · rcases hres : resolve v base with _ | u
      · rw [hres] at h; simp at h
      · rw [hres] at h
        have h2 : setAttr e attr u = e' := by simpa using h
        subst h2
        rfl
    · have h2 : e = e' := by simpa using h
      subst h2
      rfl
  · have h2 : e = e' := by simpa using h
    subst h2
    rfl

theorem anchorElem_tag (base : String) (e e' : Element)
    (h : anchorElem base e = some e') : e'.tag = e.tag := by
  unfold anchorElem at h
  split at h
  · rename_i v hv
    split at h
    · rcases hres : resolve v base with _ | u
      · rw [hres] at h; simp at h
      · rw [hres] at h
        have h2 : setAttr e "href" u = e' := by simpa using h
        subst h2
        rfl
    · have h2 : e = e' := by simpa using h
      subst h2
      rfl
  · have h2 : e = e' := by simpa using h
    subst h2
    rfl

theorem processElem_tag (base : String) (e e' : Element)
    (h : processElem base e = some e') : e'.tag = e.tag := by
  unfold processElem at h
  by_cases h1 : e.tag = "img" ∨ e.tag = "script"
  · rw [if_pos h1] at h
    exact rebaseElem_tag base "src" e e' h
  · rw [if_neg h1] at h
    by_cases h2 : e.tag = "link"
    · rw [if_pos h2] at h
      exact rebaseElem_tag base "href" e e' h
    · rw [if_neg h2] at h
      by_cases h3 : e.tag = "a"
      · rw [if_pos h3] at h
        exact anchorElem_tag base e e' h
      · rw [if_neg h3] at h
        have h4 : e = e' := by simpa using h
        subst h4
        rfl

theorem rebaseElem_idem (base attr : String) (e e' : Element)
    (h : rebaseElem base attr e = some e') : rebaseElem base attr e' = some e' := by
  unfold rebaseElem at h
  split at h
  · rename_i v hv
    split at h
    · rcases hres : resolve v base with _ | u
      · rw [hres] at h; simp at h
      · rw [hres] at h
        have h2 : setAttr e attr u = e' := by simpa using h
        subst h2
        unfold rebaseElem
        rw [getAttr_setAttr_self]
        show (if u ≠ "" ∧ skipRebase u = false
            then (resolve u base).map (setAttr (setAttr e attr u) attr)
            else some (setAttr e attr u)) = some (setAttr e attr u)
        split
        · rw [resolve_fix v base u hres]
          have hsame : setAttr (setAttr e attr u) attr u = setAttr e attr u :=
            setAttr_id _ attr u (getAttr_setAttr_self e attr u)
          simp [hsame]
        · rfl
    · rename_i hcond
      have h2 : e = e' := by simpa using h
      subst h2
      unfold rebaseElem
      rw [hv]
      show (if v ≠ "" ∧ skipRebase v = false
          then (resolve v base).map (setAttr e attr) else some e) = some e
      rw [if_neg hcond]
  · rename_i hv
    have h2 : e = e' := by simpa using h
    subst h2
    unfold rebaseElem
    rw [hv]

theorem anchorElem_idem (base : String) (e e' : Element)
    (h : anchorElem base e = some e') : anchorElem base e' = some e' := by
  unfold anchorElem at h
  split at h
  · rename_i v hv
    split at h
    · rcases hres : resolve v base with _ | u
      · rw [hres] at h; simp at h
      · rw [hres] at h
        have h2 : setAttr e "href" u = e' := by simpa using h
        subst h2
        unfold anchorElem
        rw [getAttr_setAttr_self]
        show (if skipAnchor u = false
            then (resolve u base).map (setAttr (setAttr e "href" u) "href")
            else some (setAttr e "href" u)) = some (setAttr e "href" u)
        split
        · rw [resolve_fix v base u hres]
          have hsame : setAttr (setAttr e "href" u) "href" u = setAttr e "href" u :=
            setAttr_id _ "href" u (getAttr_setAttr_self e "href" u)
          simp [hsame]
        · rfl
    · rename_i hcond
      have h2 : e = e' := by simpa using h
      subst h2
      unfold anchorElem
      rw [hv]
      show (if skipAnchor v = false
          then (resolve v base).map (setAttr e "href") else some e) = some e
      rw [if_neg hcond]
  · rename_i hv
    have h2 : e = e' := by simpa using h
    subst h2
    unfold anchorElem
    rw [hv]

theorem processElem_idem (base : String) (e e' : Element)
    (h : processElem base e = some e') : processElem base e' = some e' := by
  have htag : e'.tag = e.tag := processElem_tag base e e' h
  unfold processElem at h ⊢
  rw [htag]
  by_cases h1 : e.tag = "img" ∨ e.tag = "script"
  · rw [if_pos h1] at h ⊢
    exact rebaseElem_idem base "src" e e' h
  · rw [if_neg h1] at h ⊢
    by_cases h2 : e.tag = "link"
    · rw [if_pos h2] at h ⊢
      exact rebaseElem_idem base "href" e e' h
    · rw [if_neg h2] at h ⊢
      by_cases h3 : e.tag = "a"
      · rw [if_pos h3] at h ⊢
        exact anchorElem_idem base e e' h
      · rw [if_neg h3] at h ⊢

theorem processNode_idem (base : String) (n n' : Node)
    (h : processNode base n = some n') : processNode base n' = some n' := by
  cases n with
  | text s =>
    simp only [processNode] at h
    have h2 : Node.text s = n' := by simpa using h
    subst h2
    rfl
  | elem e =>
    simp only [processNode] at h
    rcases hpe : processElem base e with _ | e2
    · rw [hpe] at h; simp at h
    · rw [hpe] at h
      have h2 : Node.elem e2 = n' := by simpa using h
      subst h2
      simp only [processNode]
      rw [processElem_idem base e e2 hpe]
      rfl

/- ### Document traversal lemmas -/

theorem traverseDoc_idem (f : Node → Option Node)
    (hf : ∀ n n', f n = some n' → f n' = some n') :
    ∀ d d', traverseDoc f d = some d' → traverseDoc f d' = some d' := by
  intro d
  induction d with
  | nil =>
    intro d' h
    have h2 : ([] : Doc) = d' := by simpa [traverseDoc] using h
    subst h2
    rfl
  | cons n ns ih =>
    intro d' h
    unfold traverseDoc at h
    rcases hn : f n with _ | n2
    · rw [hn] at h; simp at h
    · rw [hn] at h
      rcases hns : traverseDoc f ns with _ | ns2
      · rw [hns] at h; simp at h
      · rw [hns] at h
        have h2 : n2 :: ns2 = d' := by simpa using h
        subst h2
        unfold traverseDoc
        rw [hf n n2 hn, ih ns2 hns]

/- ### Case analysis of one element pass -/

theorem rebaseElem_cases (base attr : String) (e e' : Element)
    (h : rebaseElem base attr e = some e') :
    (e' = e ∧ ∀ v, getAttr e attr = some v → v = "" ∨ skipRebase v = true)
    ∨ (∃ v u, getAttr e attr = some v ∧ v ≠ "" ∧ skipRebase v = false
        ∧ resolve v base = some u ∧ e' = setAttr e attr u) := by
  unfold rebaseElem at h
  split at h
  · rename_i v hv
    split at h
    · rename_i hcond
      rcases hres : resolve v base with _ | u
      · rw [hres] at h; simp at h
      · rw [hres] at h
        have h2 : setAttr e attr u = e' := by simpa using h
        exact Or.inr ⟨v, u, hv, hcond.1, hcond.2, hres, h2.symm⟩
    · rename_i hcond
      have h2 : e = e' := by simpa using h
      refine Or.inl ⟨h2.symm, ?_⟩
      intro v' hv'
      rw [hv] at hv'
      injection hv' with hv'
      subst hv'
      by_cases hve : v = ""
      · exact Or.inl hve
      · right
        rcases Bool.eq_false_or_eq_true (skipRebase v) with ht | hf
        · exact ht
        · exact absurd ⟨hve, hf⟩ hcond
  · rename_i hv
    have h2 : e = e' := by simpa using h
    refine Or.inl ⟨h2.symm, ?_⟩
    intro v' hv'
    rw [hv] at hv'
    simp at hv'

theorem anchorElem_cases (base : String) (e e' : Element)
    (h : anchorElem base e = some e') :
    (e' = e ∧ ∀ v, getAttr e "href" = some v → skipAnchor v = true)
    ∨ (∃ v u, getAttr e "href" = some v ∧ skipAnchor v = false
        ∧ resolve v base = some u ∧ e' = setAttr e "href" u) := by
  unfold anchorElem at h
  split at h
  · rename_i v hv
    split at h
    · rename_i hcond
      rcases hres : resolve v base with _ | u
      · rw [hres] at h; simp at h
      · rw [hres] at h
        have h2 : setAttr e "href" u = e' := by simpa using h
        exact Or.inr ⟨v, u, hv, hcond, hres, h2.symm⟩
    · rename_i hcond
      have h2 : e = e' := by simpa using h
      refine Or.inl ⟨h2.symm, ?_⟩
      intro v' hv'
      rw [hv] at hv'
      injection hv' with hv'
      subst hv'
      rcases Bool.eq_false_or_eq_true (skipAnchor v) with ht | hf
      · exact ht
      · exact absurd hf hcond
  · rename_i hv
    have h2 : e = e' := by simpa using h
    refine Or.inl ⟨h2.symm, ?_⟩
    intro v' hv'
    rw [hv] at hv'
    simp at hv'

theorem processElem_cases (base : String) (e e' : Element)
    (h : processElem base e = some e') :
    (e' = e
      ∧ ((e.tag = "img" ∨ e.tag = "script") →
          ∀ v, getAttr e "src" = some v → v = "" ∨ skipRebase v = true)
      ∧ (e.tag = "link" →
          ∀ v, getAttr e "href" = some v → v = "" ∨ skipRebase v = true)
      ∧ (e.tag = "a" → ∀ v, getAttr e "href" = some v → skipAnchor v = true))
    ∨ ((e.tag = "img" ∨ e.tag = "script") ∧ ∃ v u, getAttr e "src" = some v ∧ v ≠ ""
        ∧ skipRebase v = false ∧ resolve v base = some u ∧ e' = setAttr e "src" u)
    ∨ (e.tag = "link" ∧ ∃ v u, getAttr e "href" = some v ∧ v ≠ ""
        ∧ skipRebase v = false ∧ resolve v base = some u ∧ e' = setAttr e "href" u)
    ∨ (e.tag = "a" ∧ ∃ v u, getAttr e "href" = some v
        ∧ skipAnchor v = false ∧ resolve v base = some u ∧ e' = setAttr e "href" u) := by
  unfold processElem at h
  by_cases h1 : e.tag = "img" ∨ e.tag = "script"
  · rw [if_pos h1] at h
    rcases rebaseElem_cases base "src" e e' h with ⟨he, hreason⟩ | hrw
    · refine Or.inl ⟨he, fun _ => hreason, ?_, ?_⟩
      · intro hlink
        rcases h1 with h1 | h1 <;> rw [hlink] at h1 <;> simp at h1
      · intro ha
        rcases h1 with h1 | h1 <;> rw [ha] at h1 <;> simp at h1
    · exact Or.inr (Or.inl ⟨h1, hrw⟩)
  · rw [if_neg h1] at h
    by_cases h2 : e.tag = "link"
    · rw [if_pos h2] at h
      rcases rebaseElem_cases base "href" e e' h with ⟨he, hreason⟩ | hrw
      · refine Or.inl ⟨he, fun hc => absurd hc h1, fun _ => hreason, ?_⟩
        intro ha
        rw [ha] at h2
        simp at h2
      · exact Or.inr (Or.inr (Or.inl ⟨h2, hrw⟩))
    · rw [if_neg h2] at h
      by_cases h3 : e.tag = "a"
      · rw [if_pos h3] at h
        rcases anchorElem_cases base e e' h with ⟨he, hreason⟩ | hrw
        · exact Or.inl ⟨he, fun hc => absurd hc h1, fun hc => absurd hc h2,
            fun _ => hreason⟩
        · exact Or.inr (Or.inr (Or.inr ⟨h3, hrw⟩))
      · rw [if_neg h3] at h
        have h4 : e = e' := by simpa using h
        exact Or.inl ⟨h4.symm, fun hc => absurd hc h1,
          fun hc => absurd hc h2, fun hc => absurd hc h3⟩

theorem traverseDoc_forall2 (R : Node → Node → Prop) (f : Node → Option Node)
    (hf : ∀ n n', f n = some n' → R n n') :
    ∀ d d', traverseDoc f d = some d' → List.Forall₂ R d d' := by
  intro d
  induction d with
  | nil =>
    intro d' h
    have h2 : ([] : Doc) = d' := by simpa [traverseDoc] using h
    subst h2
    exact List.Forall₂.nil
  | cons n ns ih =>
    intro d' h
    unfold traverseDoc at h
    rcases hn : f n with _ | n2
    · rw [hn] at h; simp at h
    · rw [hn] at h
      rcases hns : traverseDoc f ns with _ | ns2
      · rw [hns] at h; simp at h
      · rw [hns] at h
        have h2 : n2 :: ns2 = d' := by simpa using h
        subst h2
        exact List.Forall₂.cons (hf n n2 hn) (ih ns2 hns)

/- ### Node relations for the absolutizer claims -/

/-- Per-node guarantee that values matched by the skip pattern of the pass
  processing the element leave the element byte-identical. -/
def skippedKept : Node → Node → Prop
  | .elem e, .elem e2 =>
    ((e.tag = "img" ∨ e.tag = "script") →
      ∀ v, getAttr e "src" = some v → skipRebase v = true → e2 = e) ∧
    (e.tag = "link" → ∀ v, getAttr e "href" = some v → skipRebase v = true → e2 = e) ∧
    (e.tag = "a" → ∀ v, getAttr e "href" = some v → skipAnchor v = true → e2 = e)
  | .text s, .text s2 => s2 = s
  | _, _ => False

/-- Per-node guarantee that processed relative values are replaced by
  their resolution against the base. -/
def rewrittenAbs (base : String) : Node → Node → Prop
  | .elem e, .elem e2 =>
    ((e.tag = "img" ∨ e.tag = "script") →
      ∀ v, getAttr e "src" = some v → v ≠ "" → skipRebase v = false →
        ∃ u, resolve v base = some u ∧ getAttr e2 "src" = some u) ∧
    (e.tag = "link" →
      ∀ v, getAttr e "href" = some v → v ≠ "" → skipRebase v = false →
        ∃ u, resolve v base = some u ∧ getAttr e2 "href" = some u) ∧
    (e.tag = "a" →
      ∀ v, getAttr e "href" = some v → skipAnchor v = false →
        ∃ u, resolve v base = some u ∧ getAttr e2 "href" = some u)
  | .text _, .text _ => True
  | _, _ => False

/-- Per-node frame guarantee: tags are preserved, only the designated
  attribute of the four selected tag kinds can change, text nodes and
  elements of any other tag are unchanged. -/
def frameKept : Node → Node → Prop
  | .elem e, .elem e2 =>
    e2.tag = e.tag ∧
    (∀ a, ¬ (((e.tag = "img" ∨ e.tag = "script") ∧ a = "src")
        ∨ ((e.tag = "link" ∨ e.tag = "a") ∧ a = "href")) →
      getAttr e2 a = getAttr e a) ∧
    (¬ (e.tag = "img" ∨ e.tag = "script" ∨ e.tag = "link" ∨ e.tag = "a") → e2 = e)
  | .text s, .text s2 => s2 = s
  | _, _ => False

theorem processNode_elem_some (base : String) (e : Element) (n2 : Node)
    (h : processNode base (.elem e) = some n2) :
    ∃ e2, n2 = .elem e2 ∧ processElem base e = some e2 := by
  simp only [processNode] at h
  rcases hpe : processElem base e with _ | e2
  · rw [hpe] at h; simp at h
  · rw [hpe] at h
    have h2 : Node.elem e2 = n2 := by simpa using h
    exact ⟨e2, h2.symm, rfl⟩

theorem processNode_skippedKept (base : String) (n n2 : Node)
    (h : processNode base n = some n2) : skippedKept n n2 := by
  cases n with
  | text s =>
    simp only [processNode] at h
    have h2 : Node.text s = n2 := by simpa using h
    subst h2
    exact rfl
  | elem e =>
    obtain ⟨e2, rfl, hpe⟩ := processNode_elem_some base e n2 h
    rcases processElem_cases base e e2 hpe with ⟨he, _⟩ | hcase | hcase | hcase
    · exact ⟨fun _ _ _ _ => he, fun _ _ _ _ => he, fun _ _ _ _ => he⟩
    · obtain ⟨htag, v, u, hv, _, hskip, _, _⟩ := hcase
      refine ⟨?_, ?_, ?_⟩
      · intro _ w hw hws
        rw [hv] at hw
        injection hw with hw
        subst hw
        rw [hws] at hskip
        cases hskip
      · intro hlink
        rcases htag with ht | ht <;> rw [hlink] at ht <;> simp at ht
      · intro ha
        rcases htag with ht | ht <;> rw [ha] at ht <;> simp at ht
    · obtain ⟨htag, v, u, hv, _, hskip, _, _⟩ := hcase
      refine ⟨?_, ?_, ?_⟩
      · intro himg
        rcases himg with ht | ht <;> rw [htag] at ht <;> simp at ht
      · intro _ w hw hws
        rw [hv] at hw
        injection hw with hw
        subst hw
        rw [hws] at hskip
        cases hskip
      · intro ha
        rw [htag] at ha
        simp at ha
    · obtain ⟨htag, v, u, hv, hskip, _, _⟩ := hcase
      refine ⟨?_, ?_, ?_⟩
      · intro himg
        rcases himg with ht | ht <;> rw [htag] at ht <;> simp at ht
      · intro hlink
        rw [htag] at hlink
        simp at hlink
      · intro _ w hw hws
        rw [hv] at hw
        injection hw with hw
        subst hw
        rw [hws] at hskip
        cases hskip

theorem processNode_rewrittenAbs (base : String) (n n2 : Node)
    (h : processNode base n = some n2) : rewrittenAbs base n n2 := by
  cases n with
  | text s =>
    simp only [processNode] at h
    have h2 : Node.text s = n2 := by simpa using h
    subst h2
    exact trivial
  | elem e =>
    obtain ⟨e2, rfl, hpe⟩ := processNode_elem_some base e n2 h
    rcases processElem_cases base e e2 hpe with ⟨he, hr1, hr2, hr3⟩ | hcase | hcase | hcase
    · refine ⟨?_, ?_, ?_⟩
      · intro htag v hv hne hskip
        rcases hr1 htag v hv with he2 | hs2
        · exact absurd he2 hne
        · rw [hs2] at hskip; cases hskip
      · intro htag v hv hne hskip
        rcases hr2 htag v hv with he2 | hs2
        · exact absurd he2 hne
        · rw [hs2] at hskip; cases hskip
      · intro htag v hv hskip
        rw [hr3 htag v hv] at hskip
        cases hskip
    · obtain ⟨htag, v, u, hv, hne, hskip, hres, he2⟩ := hcase
      refine ⟨?_, ?_, ?_⟩
      · intro _ w hw _ _
        rw [hv] at hw
        injection hw with hw
        subst hw
        subst he2
        exact ⟨u, hres, getAttr_setAttr_self e "src" u⟩
      · intro hlink
        rcases htag with ht | ht <;> rw [hlink] at ht <;> simp at ht
      · intro ha
        rcases htag with ht | ht <;> rw [ha] at ht <;> simp at ht
    · obtain ⟨htag, v, u, hv, hne, hskip, hres, he2⟩ := hcase
      refine ⟨?_, ?_, ?_⟩
      · intro himg
        rcases himg with ht | ht <;> rw [htag] at ht <;> simp at ht
      · intro _ w hw _ _
        rw [hv] at hw
        injection hw with hw
        subst hw
        subst he2
        exact ⟨u, hres, getAttr_setAttr_self e "href" u⟩
      · intro ha
        rw [htag] at ha
        simp at ha
    · obtain ⟨htag, v, u, hv, hskip, hres, he2⟩ := hcase
      refine ⟨?_, ?_, ?_⟩
      · intro himg
        rcases himg with ht | ht <;> rw [htag] at ht <;> simp at ht
      · intro hlink
        rw [htag] at hlink
        simp at hlink
      · intro _ w hw _
        rw [hv] at hw
        injection hw with hw
        subst hw
        subst he2
        exact ⟨u, hres, getAttr_setAttr_self e "href" u⟩

theorem processNode_frameKept (base : String) (n n2 : Node)
    (h : processNode base n = some n2) : frameKept n n2 := by
  cases n with
  | text s =>
    simp only [processNode] at h
    have h2 : Node.text s = n2 := by simpa using h
    subst h2
    exact rfl
  | elem e =>
    obtain ⟨e2, rfl, hpe⟩ := processNode_elem_some base e n2 h
    have htg : e2.tag = e.tag := processElem_tag base e e2 hpe
    rcases processElem_cases base e e2 hpe with ⟨he, _⟩ | hcase | hcase | hcase
    · exact ⟨htg, fun a _ => by rw [he], fun _ => he⟩
    · obtain ⟨htag, v, u, _, _, _, _, he2⟩ := hcase
      refine ⟨htg, ?_, ?_⟩
      · intro a hna
        have hasrc : ¬ a = "src" := fun hc => hna (Or.inl ⟨htag, hc⟩)
        subst he2
        exact getAttr_setAttr_other e "src" u a fun hc => hasrc hc.symm
      · intro hno
        exact absurd (htag.elim Or.inl (fun hs => Or.inr (Or.inl hs))) hno
    · obtain ⟨htag, v, u, _, _, _, _, he2⟩ := hcase
      refine ⟨htg, ?_, ?_⟩
      · intro a hna
        have hahref : ¬ a = "href" := fun hc => hna (Or.inr ⟨Or.inl htag, hc⟩)
        subst he2
        exact getAttr_setAttr_other e "href" u a fun hc => hahref hc.symm
      · intro hno
        exact absurd (Or.inr (Or.inr (Or.inl htag))) hno
    · obtain ⟨htag, v, u, _, _, _, he2⟩ := hcase
      refine ⟨htg, ?_, ?_⟩
      · intro a hna
        have hahref : ¬ a = "href" := fun hc => hna (Or.inr ⟨Or.inr htag, hc⟩)
        subst he2
        exact getAttr_setAttr_other e "href" u a fun hc => hahref hc.symm
      · intro hno
        exact absurd (Or.inr (Or.inr (Or.inr htag))) hno

/- ### Claim theorems for the Reference Absolutizer -/

/-- C1: absolutization is idempotent: for every document tree and base URL,
  re-applying makeUrlsAbsolute to its own output with the same base produces
  the same output, absolutize(absolutize(tree, base), base) = absolutize(tree, base)
  (a throwing application is modelled by none and propagates through bind). -/
theorem C1_absolutize_idempotent (d : Doc) (base : String) :
    (makeUrlsAbsolute d base).bind (fun t => makeUrlsAbsolute t base)
      = makeUrlsAbsolute d base := by
  rcases h : makeUrlsAbsolute d base with _ | d2
  · rfl
  · show makeUrlsAbsolute d2 base = some d2
    exact traverseDoc_idem (processNode base) (processNode_idem base) d d2 h

/-- C2 counterexample: with base https://example.com/page, a link element
  whose href "#styles" begins with "#" is rewritten by makeUrlsAbsolute to
  "https://example.com/page#styles" — not byte-identical, contradicting the
  claim that fragment values are never rewritten in link href. -/
theorem C2_counterexample :
    makeUrlsAbsolute [Node.elem ⟨"link", [("href", "#styles")]⟩] "https://example.com/page"
        = some [Node.elem ⟨"link", [("href", "https://example.com/page#styles")]⟩]
      ∧ ("https://example.com/page#styles" : String) ≠ "#styles" :=
  ⟨by decide, by decide⟩

/-- C2 (amended): the Absolutizer never rewrites values matched by the skip
  pattern of the pass that processes them: img src, script src and link href
  values beginning with http:, https: or data: are left byte-identical (the
  element is unchanged), and anchor href values beginning with http:, https:,
  "#" or mailto: likewise; values beginning with "#" or mailto: in img, script
  or link attributes are not covered by any skip pattern and may be rewritten. -/
theorem C2_skip_prefixes_kept (d : Doc) (base : String) (d2 : Doc)
    (h : makeUrlsAbsolute d base = some d2) : List.Forall₂ skippedKept d d2 :=
  traverseDoc_forall2 skippedKept (processNode base) (processNode_skippedKept base) d d2 h

/-- C2 witness: a document whose img src and anchor href both match their
  skip patterns passes through makeUrlsAbsolute unchanged. -/
theorem C2_skip_prefixes_kept_witness :
    List.Forall₂ skippedKept
      [Node.elem ⟨"img", [("src", "https://cdn.example.org/a.png")]⟩,
        Node.elem ⟨"a", [("href", "#top")]⟩]
      [Node.elem ⟨"img", [("src", "https://cdn.example.org/a.png")]⟩,
        Node.elem ⟨"a", [("href", "#top")]⟩] :=
  C2_skip_prefixes_kept _ "https://example.com/" _ (by decide)

/-- C3: the code fails on unresolvable values instead of leaving them as-is:
  makeUrlsAbsolute does not catch the TypeError thrown by new URL, so with
  the unparseable base "not a url" the relative img src "/x" makes the whole
  call throw (modelled by none), contradicting the claim that the function
  returns normally with the value unchanged. -/
theorem C3_unresolvable_throws :
    makeUrlsAbsolute [Node.elem ⟨"img", [("src", "/x")]⟩] "not a url" = none := by decide

/-- C4: every processed relative value of the four URL-bearing pairs is
  replaced by its standard resolution against the base URL; in particular an
  img src "/logo.png" with base https://example.com/ becomes
  "https://example.com/logo.png". -/
theorem C4_relative_resolved :
    (∀ (d : Doc) (base : String) (d2 : Doc), makeUrlsAbsolute d base = some d2 →
      List.Forall₂ (rewrittenAbs base) d d2)
    ∧ makeUrlsAbsolute [Node.elem ⟨"img", [("src", "/logo.png")]⟩] "https://example.com/"
        = some [Node.elem ⟨"img", [("src", "https://example.com/logo.png")]⟩] := by
  constructor
  · intro d base d2 h
    exact traverseDoc_forall2 _ (processNode base) (processNode_rewrittenAbs base) d d2 h
  · decide

/-- C4 witness: the img src "/logo.png" resolves against
  https://example.com/ to https://example.com/logo.png. -/
theorem C4_relative_resolved_witness :
    List.Forall₂ (rewrittenAbs "https://example.com/")
      [Node.elem ⟨"img", [("src", "/logo.png")]⟩]
      [Node.elem ⟨"img", [("src", "https://example.com/logo.png")]⟩] :=
  C4_relative_resolved.1 _ "https://example.com/" _ (by decide)

/-- C5 counterexample: a link element with rel="icon" — not a stylesheet —
  has its href rewritten, because the code selects link[href] regardless of
  rel, contradicting the claim that only the four named pairs (with
  stylesheet href) are rewritten. -/
theorem C5_counterexample :
    makeUrlsAbsolute [Node.elem ⟨"link", [("rel", "icon"), ("href", "/favicon.ico")]⟩]
        "https://example.com/"
      = some [Node.elem ⟨"link",
          [("rel", "icon"), ("href", "https://example.com/favicon.ico")]⟩]
    ∧ ("https://example.com/favicon.ico" : String) ≠ "/favicon.ico" :=
  ⟨by decide, by decide⟩

/-- C5 (amended): makeUrlsAbsolute rewrites only img src, script src, link
  href (for every link element regardless of rel, not only stylesheets) and
  anchor href: tags are preserved, every other attribute keeps its value,
  text nodes are unchanged, and elements of any other tag are untouched. -/
theorem C5_frame_effect (d : Doc) (base : String) (d2 : Doc)
    (h : makeUrlsAbsolute d base = some d2) : List.Forall₂ frameKept d d2 :=
  traverseDoc_forall2 frameKept (processNode base) (processNode_frameKept base) d d2 h

/-- C5 witness: an img keeps its alt attribute and a text node is unchanged
  while the img src is absolutized. -/
theorem C5_frame_effect_witness :
    List.Forall₂ frameKept
      [Node.elem ⟨"img", [("src", "/logo.png"), ("alt", "logo")]⟩, Node.text "hi"]
      [Node.elem ⟨"img", [("src", "https://example.com/logo.png"), ("alt", "logo")]⟩,
        Node.text "hi"] :=
  C5_frame_effect _ "https://example.com/" _ (by decide)

/- ### Lemmas about the spec-modelled backend pipeline -/

theorem finalize_success : ∀ acc ps, finalize acc = CloneResult.success ps →
    ps = acc ∧ acc ≠ [] := by
  intro acc ps h
  cases acc with
  | nil => simp [finalize] at h
  | cons a t =>
    simp only [finalize] at h
    injection h with h2
    exact ⟨h2.symm, by simp⟩

theorem crawlLoop_success_ne_nil (fetchO : String → Option RenderedPage)
    (discoverO : String → List String) (req : CloneRequest) :
    ∀ fuel frontier visited acc sp ps,
      crawlLoop fetchO discoverO req fuel frontier visited acc sp = CloneResult.success ps →
      ps ≠ [] := by
  intro fuel
  induction fuel with
  | zero =>
    intro frontier visited acc sp ps h
    simp only [crawlLoop] at h
    obtain ⟨hps, hacc⟩ := finalize_success acc ps h
    rw [hps]; exact hacc
  | succ fuel ih =>
    intro frontier visited acc sp ps h
    cases frontier with
    | nil =>
      simp only [crawlLoop] at h
      obtain ⟨hps, hacc⟩ := finalize_success acc ps h
      rw [hps]; exact hacc
    | cons p frontier2 =>
      rcases p with ⟨u, depth⟩
      simp only [crawlLoop] at h
      split at h
      · obtain ⟨hps, hacc⟩ := finalize_success acc ps h
        rw [hps]; exact hacc
      · split at h
        · split at h
          · cases h
          · exact ih _ _ _ _ _ h
        · exact ih _ _ _ _ _ h

theorem crawlLoop_success_head (fetchO : String → Option RenderedPage)
    (discoverO : String → List String) (req : CloneRequest) :
    ∀ fuel frontier visited acc sp ps,
      crawlLoop fetchO discoverO req fuel frontier visited acc sp = CloneResult.success ps →
      acc ≠ [] → ps.head? = acc.head? := by
  intro fuel
  induction fuel with
  | zero =>
    intro frontier visited acc sp ps h hacc
    simp only [crawlLoop] at h
    obtain ⟨hps, _⟩ := finalize_success acc ps h
    rw [hps]
  | succ fuel ih =>
    intro frontier visited acc sp ps h hacc
    cases frontier with
    | nil =>
      simp only [crawlLoop] at h
      obtain ⟨hps, _⟩ := finalize_success acc ps h
      rw [hps]
    | cons p frontier2 =>
      rcases p with ⟨u, depth⟩
      simp only [crawlLoop] at h
      split at h
      · obtain ⟨hps, _⟩ := finalize_success acc ps h
        rw [hps]
      · split at h
        · split at h
          · cases h
          · exact ih _ _ _ _ _ h hacc
        · rename_i pg hpg
          have h2 := ih _ _ _ _ _ h (by simp)
          rw [h2]
          cases acc with
          | nil => exact absurd rfl hacc
          | cons a t => simp

theorem crawlLoop_seed_head (fetchO : String → Option RenderedPage)
    (discoverO : String → List String) (req : CloneRequest) :
    ∀ fuel u depth frontier visited ps,
      crawlLoop fetchO discoverO req fuel ((u, depth) :: frontier) visited [] true
        = CloneResult.success ps →
      ps.head?.map PageData.url = some u := by
  intro fuel u depth frontier visited ps h
  cases fuel with
  | zero =>
    simp only [crawlLoop] at h
    obtain ⟨_, hacc⟩ := finalize_success [] ps h
    exact absurd rfl hacc
  | succ fuel =>
    simp only [crawlLoop] at h
    split at h
    · obtain ⟨_, hacc⟩ := finalize_success [] ps h
      exact absurd rfl hacc
    · split at h
      · cases h
      · rename_i pg hpg
        have h2 := crawlLoop_success_head fetchO discoverO req fuel _ _ _ _ ps h (by simp)
        rw [h2]
        simp [mkRecord]

theorem runClone_seed_first (fetchO : String → Option RenderedPage)
    (discoverO : String → List String) (req : CloneRequest) (ps : List PageData)
    (h : runClone fetchO discoverO req = CloneResult.success ps) :
    ps.head?.map PageData.url = some (canonicalize req.seedUrl) := by
  unfold runClone at h
  exact crawlLoop_seed_head fetchO discoverO req _ _ _ _ _ _ h

/- ### Helper for the loading flag -/

theorem cloneSite_loading (s : HomeState) (r : FetchResult) :
    (cloneSite s r).state.loading = if s.url = "" then s.loading else true := by
  unfold cloneSite
  by_cases hurl : s.url = ""
  · simp [hurl]
  · cases r with
    | httpFail d => simp [hurl]
    | thrown m => simp [hurl]
    | ok pages =>
      cases pages with
      | none => simp [hurl]
      | some ps =>
        rcases ps with _ | ⟨p, t⟩
        · simp [hurl]
        · simp [hurl]

/- ### Claim theorems for cloneSite and the clone pipeline -/

/-- C6: a clone result with zero page records is always treated as failure:
  the frontend reports "No pages returned" and shows no pages whenever the
  response carries an empty or missing pages list, the spec-modelled
  Aggregator finalization of zero records is the EmptyResult failure, and
  the spec-modelled pipeline never returns a successful empty sequence. -/
theorem C6_empty_result_fails :
    (∀ (s : HomeState) (ps : Option (List PageData)), s.url ≠ "" →
      (ps = none ∨ ps = some []) →
      (cloneSite s (.ok ps)).state.error = some "No pages returned"
        ∧ (cloneSite s (.ok ps)).state.pages = [])
    ∧ finalize [] = CloneResult.failure "EmptyResult"
    ∧ (∀ (fetchO : String → Option RenderedPage) (discoverO : String → List String)
        (req : CloneRequest) (ps : List PageData),
        runClone fetchO discoverO req = CloneResult.success ps → ps ≠ []) := by
  refine ⟨?_, rfl, ?_⟩
  · intro s ps hurl hps
    rcases hps with rfl | rfl
    · simp [cloneSite, hurl]
    · simp [cloneSite, hurl]
  · intro fetchO discoverO req ps h
    unfold runClone at h
    exact crawlLoop_success_ne_nil fetchO discoverO req _ _ _ _ _ _ h

/-- C6 witness: a non-empty submission answered with an empty pages list
  ends with the "No pages returned" error and no pages. -/
theorem C6_empty_result_fails_witness :
    (cloneSite ⟨"https://example.com", [], 0, false, none⟩ (.ok (some []))).state.error
        = some "No pages returned"
      ∧ (cloneSite ⟨"https://example.com", [], 0, false, none⟩
          (.ok (some []))).state.pages = [] :=
  C6_empty_result_fails.1 _ (some []) (by decide) (Or.inr rfl)

/-- C7: an invalid (empty) seed URL is never attempted: cloneSite performs
  no fetch and reports the InvalidInput-style message "Please enter a URL",
  displaying no pages. -/
theorem C7_invalid_input_no_fetch (s : HomeState) (r : FetchResult) (h : s.url = "") :
    (cloneSite s r).fetched = false
      ∧ (cloneSite s r).state.error = some "Please enter a URL"
      ∧ (cloneSite s r).state.pages = [] := by
  simp [cloneSite, h]

/-- C7 witness: the empty submission with any pending response performs no
  fetch and reports the error. -/
theorem C7_invalid_input_no_fetch_witness :
    (cloneSite ⟨"", [], 0, false, none⟩ (.ok none)).fetched = false
      ∧ (cloneSite ⟨"", [], 0, false, none⟩ (.ok none)).state.error
          = some "Please enter a URL"
      ∧ (cloneSite ⟨"", [], 0, false, none⟩ (.ok none)).state.pages = [] :=
  C7_invalid_input_no_fetch ⟨"", [], 0, false, none⟩ (.ok none) rfl

/-- C8: whenever the (spec-modelled) backend clone succeeds, the page record
  at index 0 is the seed page — its url equals canonicalize(seedUrl) — and on
  receiving those pages the frontend stores exactly them and selects index 0
  for the preview. -/
theorem C8_seed_first (fetchO : String → Option RenderedPage)
    (discoverO : String → List String) (req : CloneRequest)
    (ps : List PageData) (s : HomeState)
    (hok : runClone fetchO discoverO req = CloneResult.success ps)
    (hurl : s.url ≠ "") :
    ps.head?.map PageData.url = some (canonicalize req.seedUrl)
      ∧ (cloneSite s (.ok (some ps))).state.pages = ps
      ∧ (cloneSite s (.ok (some ps))).state.sel = 0 := by
  have hne : ps ≠ [] := by
    unfold runClone at hok
    exact crawlLoop_success_ne_nil fetchO discoverO req _ _ _ _ _ _ hok
  have hemp : ps.isEmpty = false := by
    cases ps with
    | nil => exact absurd rfl hne
    | cons a t => rfl
  refine ⟨runClone_seed_first _ _ _ _ hok, ?_, ?_⟩
  · simp [cloneSite, hurl, hemp]
  · simp [cloneSite, hurl, hemp]

/-- C8 witness: a one-page clone of https://example.com/x yields the seed
  record at index 0, stored and selected by the frontend. -/
theorem C8_seed_first_witness :
    ([⟨"https://example.com/x", "<html>", "T", "D", none⟩] : List PageData).head?.map
          PageData.url
        = some (canonicalize "https://example.com/x")
      ∧ (cloneSite ⟨"https://example.com/x", [], 3, false, none⟩
          (.ok (some [⟨"https://example.com/x", "<html>", "T", "D", none⟩]))).state.pages
        = [⟨"https://example.com/x", "<html>", "T", "D", none⟩]
      ∧ (cloneSite ⟨"https://example.com/x", [], 3, false, none⟩
          (.ok (some [⟨"https://example.com/x", "<html>", "T", "D", none⟩]))).state.sel
        = 0 :=
  C8_seed_first (fun _ => some ⟨"<html>", "T", "D", none⟩) (fun _ => [])
    ⟨"https://example.com/x", 1, 0⟩ _ _ (by decide) (by decide)

/-- C9: error and result state never coexist: after any completed cloneSite
  call, either the pages list is non-empty and the error is null, or the
  pages list is empty (any previously displayed pages are discarded) and an
  error message is set. -/
theorem C9_error_xor_pages (s : HomeState) (r : FetchResult) :
    ((cloneSite s r).state.pages ≠ [] ∧ (cloneSite s r).state.error = none)
    ∨ ((cloneSite s r).state.pages = [] ∧ (cloneSite s r).state.error ≠ none) := by
  by_cases hurl : s.url = ""
  · right; simp [cloneSite, hurl]
  · cases r with
    | httpFail d => right; simp [cloneSite, hurl]
    | thrown m => right; simp [cloneSite, hurl]
    | ok pages =>
      cases pages with
      | none => right; simp [cloneSite, hurl]
      | some ps =>
        rcases ps with _ | ⟨p, t⟩
        · right; simp [cloneSite, hurl]
        · left; simp [cloneSite, hurl]

/-- C10: the loading flag is never reset: cloneSite sets it on every
  non-empty submission, cloneSite never turns it off once true, and the
  other Home handlers (url input, page selection, download) leave it
  untouched, so it stays true for the rest of the session. -/
theorem C10_loading_never_reset :
    (∀ (s : HomeState) (r : FetchResult), s.url ≠ "" →
      (cloneSite s r).state.loading = true)
    ∧ (∀ (s : HomeState) (r : FetchResult), s.loading = true →
      (cloneSite s r).state.loading = true)
    ∧ (∀ (s : HomeState) (v : String), (setUrlInput s v).loading = s.loading)
    ∧ (∀ (s : HomeState) (i : Nat), (selectPage s i).loading = s.loading)
    ∧ (∀ s : HomeState, (downloadPage s).loading = s.loading) := by
  refine ⟨?_, ?_, fun s v => rfl, fun s i => rfl, fun s => rfl⟩
  · intro s r h
    rw [cloneSite_loading, if_neg h]
  · intro s r h
    rw [cloneSite_loading]
    by_cases hurl : s.url = ""
    · rw [if_pos hurl]; exact h
    · rw [if_neg hurl]

/-- C10 witness: a started clone leaves loading true, and a failing clone
  on a state already loading leaves it true. -/
theorem C10_loading_never_reset_witness :
    (cloneSite ⟨"https://example.com", [], 0, false, none⟩ (.ok none)).state.loading = true
      ∧ (cloneSite ⟨"", [], 0, true, none⟩ (.thrown none)).state.loading = true :=
  ⟨C10_loading_never_reset.1 _ (.ok none) (by decide),
    C10_loading_never_reset.2.1 _ (.thrown none) rfl⟩

end WebClone
